import Mathlib

/-!
Formal model of the Wahala Index headline pipeline (src/app.py).

Strings are modelled as `List Char`.  Python regular-expression passes are
modelled by explicit character-level scanners with the same left-to-right,
leftmost-match, greedy, non-overlapping semantics as `re.sub` / `re.search` /
`re.findall`.  ASCII character classes are used for `[a-z]`, `[A-Z]`, `\w`,
`\s`, matching the regex classes on the ASCII-range inputs the app processes.
-/

namespace Wahala

/-- Python regex class `\w` (ASCII part): letters, digits and underscore. -/
def wordChar (c : Char) : Bool := c.isAlphanum || c = '_'

/-- `_split_camel_glue` (src/app.py line 72-74):
`re.sub(r'([a-z])([A-Z])', r'\1 \2', s)`.  The scan is non-overlapping: after
a match of two characters the scan resumes after the second character. -/
def splitCamelGlue : List Char → List Char
  | [] => []
  | [c] => [c]
  | a :: b :: rest =>
    if a.isLower && b.isUpper then a :: ' ' :: b :: splitCamelGlue rest
    else a :: splitCamelGlue (b :: rest)

/-- Replace each maximal run of characters satisfying `p` by a single space;
the `prev` flag records whether the previous character was part of a run.
With `p` = whitespace this is `re.sub(r"\s+", " ", ...)` (src/app.py line 78);
with `p` = non-word it is `re.sub(r"\W+", " ", ...)` (src/app.py line 216). -/
def collapseRunsAux (p : Char → Bool) : Bool → List Char → List Char
  | _, [] => []
  | prev, c :: rest =>
    if p c then
      if prev then collapseRunsAux p true rest
      else ' ' :: collapseRunsAux p true rest
    else c :: collapseRunsAux p false rest

/-- `re.sub(r"\s+", " ", h)` (src/app.py line 78). -/
def collapseWs (l : List Char) : List Char :=
  collapseRunsAux (fun c => c.isWhitespace) false l

/-- Python `str.strip()`: drop leading and trailing whitespace. -/
def stripWs (l : List Char) : List Char :=
  ((l.dropWhile Char.isWhitespace).reverse.dropWhile Char.isWhitespace).reverse

/-- `HEADLINE_PREFIXES` (src/app.py lines 68-70). -/
def HEADLINE_PREFIXES : List (List Char) :=
  ["naija news".toList, "nigeria news".toList, "premium times".toList,
   "thecable".toList, "daily trust".toList, "vanguard".toList, "punch".toList]

/-- The separator class `[:–-]` of the site-prefix regex (src/app.py line 82). -/
def sepDashColon (c : Char) : Bool := c = ':' || c = '–' || c = '-'

/-- One iteration of the prefix-stripping loop body (src/app.py lines 81-89):
first the regex `^pref\s*([:–-])\s*` (case-insensitive, on the lowered
string), then the fallback `low.startswith(pref + " ")`; on a match the
matched length is removed from the original-case headline. -/
def stripOnePref (pref : List Char) (h : List Char) : Option (List Char) :=
  let low := h.map Char.toLower
  if pref.isPrefixOf low then
    let r1 := low.drop pref.length
    let w1 := (r1.takeWhile Char.isWhitespace).length
    match r1.drop w1 with
    | c :: r3 =>
      if sepDashColon c then
        some (h.drop (pref.length + w1 + 1 + (r3.takeWhile Char.isWhitespace).length))
      else if r1.head? = some ' ' then some (h.drop (pref.length + 1))
      else none
    | [] =>
      if r1.head? = some ' ' then some (h.drop (pref.length + 1)) else none
  else none

/-- The prefix loop of `_normalize_headline` (src/app.py lines 81-90): try the
prefixes in order and stop (`break`) at the first one that matches. -/
def stripSiteName : List (List Char) → List Char → List Char
  | [], h => h
  | p :: ps, h =>
    match stripOnePref p h with
    | some h2 => h2
    | none => stripSiteName ps h

/-- `h.replace("—", "–")` (src/app.py line 92), a single-character map. -/
def replDash (c : Char) : Char := if c = '—' then '–' else c

/-- `h.replace("…", " ")` (src/app.py line 92), a single-character map. -/
def replEllipsis (c : Char) : Char := if c = '…' then ' ' else c

/-- Scanner state for `re.sub(r"\s*,\s*,+", ", ", h)` (src/app.py line 93).
`scanA wbuf`: collecting the `\s*` that may open a match (`wbuf` reversed);
`scanB w1 w2`: seen `w1`, a comma, and `w2` of `\s*,\s*` so far;
`scanC`: inside the greedy `,+` tail of a successful match. -/
inductive CCState
  | scanA (wbuf : List Char)
  | scanB (w1 w2 : List Char)
  | scanC

/-- Characters still buffered when the input ends without completing a match. -/
def ccFlush : CCState → List Char
  | .scanA wbuf => wbuf.reverse
  | .scanB w1 w2 => w1.reverse ++ ',' :: w2.reverse
  | .scanC => []

/-- Single left-to-right pass implementing `re.sub(r"\s*,\s*,+", ", ", h)`:
each match of `\s*,\s*,+` is replaced by `", "`, scanning resumes after the
match; a failed partial match is emitted unchanged (no character inside it
can start a match, since the failing character is neither space nor comma). -/
def ccRun : CCState → List Char → List Char
  | st, [] => ccFlush st
  | .scanA wbuf, c :: rest =>
    if c.isWhitespace then ccRun (.scanA (c :: wbuf)) rest
    else if c = ',' then ccRun (.scanB wbuf []) rest
    else wbuf.reverse ++ c :: ccRun (.scanA []) rest
  | .scanB w1 w2, c :: rest =>
    if c.isWhitespace then ccRun (.scanB w1 (c :: w2)) rest
    else if c = ',' then ',' :: ' ' :: ccRun .scanC rest
    else w1.reverse ++ ',' :: w2.reverse ++ c :: ccRun (.scanA []) rest
  | .scanC, c :: rest =>
    if c = ',' then ccRun .scanC rest
    else if c.isWhitespace then ccRun (.scanA [c]) rest
    else c :: ccRun (.scanA []) rest

/-- `re.sub(r"\s*,\s*,+", ", ", h)` (src/app.py line 93). -/
def collapseCommaRuns (l : List Char) : List Char := ccRun (.scanA []) l

/-- `_normalize_headline` (src/app.py lines 76-94): camel-glue split,
whitespace collapse + strip, site-prefix strip, punctuation unification,
comma-run collapse, final strip. -/
def _normalize_headline (h : List Char) : List Char :=
  let h1 := splitCamelGlue h
  let h2 := stripWs (collapseWs h1)
  let h3 := stripSiteName HEADLINE_PREFIXES h2
  let h4 := (h3.map replDash).map replEllipsis
  let h5 := collapseCommaRuns h4
  stripWs h5

/-- Python substring test `needle in hay` on strings. -/
def containsSub : List Char → List Char → Bool
  | needle, [] => needle.isEmpty
  | needle, c :: rest => needle.isPrefixOf (c :: rest) || containsSub needle rest

/-- Python `str.split()` with no argument: the maximal non-whitespace runs. -/
def splitWsAux (acc : List Char) : List Char → List (List Char)
  | [] => if acc.isEmpty then [] else [acc.reverse]
  | c :: rest =>
    if c.isWhitespace then
      if acc.isEmpty then splitWsAux [] rest else acc.reverse :: splitWsAux [] rest
    else splitWsAux (c :: acc) rest

/-- Python `h.split()`. -/
def splitWsWords (l : List Char) : List (List Char) := splitWsAux [] l

/-- Python `str.isupper()` (ASCII): at least one letter, and every letter is
upper-case (non-letters are not cased and are ignored). -/
def pyIsUpper (w : List Char) : Bool :=
  w.any Char.isAlpha && w.all (fun c => !c.isAlpha || c.isUpper)

/-- The promotional markers of `_is_bad_headline` (src/app.py line 98). -/
def PROMO_MARKERS : List (List Char) :=
  ["sponsored".toList, "advert".toList, "advertorial".toList, "promo".toList,
   "brand studio".toList, "press release".toList]

/-- `BRAND_BLOCKLIST` (src/app.py lines 57-59); a Python set only queried by
`any(b in low for b in ...)`, so iteration order is irrelevant. -/
def BRAND_BLOCKLIST : List (List Char) :=
  ["blockdag".toList, "pi network".toList, "worldcoin".toList, "shiba".toList,
   "dogecoin".toList, "pepe".toList, "safemoon".toList, "airdrop".toList,
   "presale".toList, "token sale".toList]

/-- `_is_bad_headline` (src/app.py lines 96-108). -/
def _is_bad_headline (h : List Char) : Bool :=
  let low := h.map Char.toLower
  PROMO_MARKERS.any (fun b => containsSub b low)
  || BRAND_BLOCKLIST.any (fun b => containsSub b low)
  || decide ((splitWsWords h).length > 20) || decide (low.count ',' ≥ 3)
  || decide (((splitWsWords h).filter
        (fun w => decide (w.length ≥ 3) && pyIsUpper w)).length ≥ 3)

/-- The de-duplication key of `fetch_headlines_from` (src/app.py line 216):
`re.sub(r"\W+", " ", t.lower()).strip()`. -/
def dedupKey (t : List Char) : List Char :=
  stripWs (collapseRunsAux (fun c => !wordChar c) false (t.map Char.toLower))

/-- The `seen`-set loop of src/app.py lines 214-219 (also reused by
`_clean_topics`, lines 350-355): keep an element when its key is not in
`seen`, adding the key; `seen` is a Python set, modelled as a list of keys. -/
def dedupByKey {α β : Type} [BEq β] (key : α → β) : List α → List β → List α
  | [], _ => []
  | t :: rest, seen =>
    if seen.contains (key t) then dedupByKey key rest seen
    else t :: dedupByKey key rest (key t :: seen)

/-- `fetch_headlines_from` (src/app.py lines 196-223) from the point where the
page's text nodes have been extracted: `raws` is the list of
`t.get_text(strip=True)` strings.  Each is stripped, dropped if empty,
normalized, dropped if `_is_bad_headline`, kept if its character length is at
least `min_len` and its word count lies in `[3, max_words]`; the kept list is
key-de-duplicated and truncated to `limit`.  The `except` branch (a transport
failure returning `[]`) is outside this pure model. -/
def fetch_headlines_from (raws : List (List Char)) (min_len : Nat := 10)
    (max_words : Nat := 20) (limit : Nat := 40) : List (List Char) :=
  let texts := raws.filterMap (fun raw0 =>
    let raw := stripWs raw0
    if raw.isEmpty then none
    else
      let r := _normalize_headline raw
      if _is_bad_headline r then none
      else if min_len ≤ r.length ∧ 3 ≤ (splitWsWords r).length ∧
          (splitWsWords r).length ≤ max_words then some r
      else none)
  (dedupByKey dedupKey texts []).take limit

/-- `SOURCES` (src/app.py lines 23-30). -/
def SOURCES : List (String × String) :=
  [("Punch", "https://punchng.com"),
   ("Vanguard", "https://www.vanguardngr.com/"),
   ("Premium Times", "https://www.premiumtimesng.com/"),
   ("Daily Trust", "https://dailytrust.com/"),
   ("TheCable", "https://www.thecable.ng/"),
   ("Naija News", "https://www.naijanews.com/")]

/-- `fetch_all_sources` (src/app.py lines 225-226): one fetch per source with
the default parameters; `pages` maps each source name to the raw text nodes
its URL yielded. -/
def fetch_all_sources (pages : List (String × List (List Char))) :
    List (String × List (List Char)) :=
  pages.map (fun p => (p.1, fetch_headlines_from p.2))

/-- `all_headlines` (src/app.py line 487):
`[h for lst in source_map.values() for h in lst]`. -/
def all_headlines (pages : List (String × List (List Char))) : List (List Char) :=
  ((fetch_all_sources pages).map Prod.snd).flatten

/-- `CATEGORIES` (src/app.py lines 32-38). -/
def CATEGORIES : List (String × List (List Char)) :=
  [("Politics", ["senate".toList, "president".toList, "governor".toList,
    "minister".toList, "election".toList, "assembly".toList, "bill".toList,
    "policy".toList, "pdp".toList, "apc".toList, "inec".toList]),
   ("Economy", ["inflation".toList, "naira".toList, "forex".toList,
    "subsidy".toList, "customs".toList, "tax".toList, "unemployment".toList,
    "budget".toList, "cbn".toList]),
   ("Power & Fuel", ["fuel".toList, "petrol".toList, "diesel".toList,
    "pump price".toList, "nepa".toList, "electricity".toList, "power".toList,
    "grid".toList, "outage".toList]),
   ("Security", ["bandit".toList, "kidnap".toList, "attack".toList,
    "security".toList, "police".toList, "insurgent".toList,
    "boko haram".toList, "theft".toList, "derail".toList, "train".toList]),
   ("Social Buzz", ["twitter".toList, "x.com".toList, "controversy".toList,
    "trend".toList, "backlash".toList, "viral".toList, "protest".toList,
    "strike".toList, "nlc".toList, "asuu".toList, "tuc".toList])]

/-- The per-category hit counts of `score_categories` (src/app.py lines
278-283): the number of (lowered) headlines containing at least one keyword
of the category as a substring. -/
def categoryCounts (headlines : List (List Char)) : List (String × Nat) :=
  let lower_lines := headlines.map (List.map Char.toLower)
  CATEGORIES.map (fun ck =>
    (ck.1, (lower_lines.filter (fun h => ck.2.any (fun kw => containsSub kw h))).length))

/-- `max_hits = max(counts.values()) if counts else 0` (src/app.py line 284);
`CATEGORIES` is non-empty and all counts are naturals, so the fold with
initial value 0 computes the Python `max`. -/
def maxHits (headlines : List (List Char)) : Nat :=
  ((categoryCounts headlines).map Prod.snd).foldr max 0

/-- Python `round` to the nearest integer, halves to the even neighbour
(banker's rounding). -/
def pyRound (x : ℚ) : ℤ :=
  if x - ⌊x⌋ < 1 / 2 then ⌊x⌋
  else if 1 / 2 < x - ⌊x⌋ then ⌊x⌋ + 1
  else if 2 ∣ ⌊x⌋ then ⌊x⌋ else ⌊x⌋ + 1

/-- The heat-score formula of src/app.py line 285:
`1 if max_hits == 0 else max(1, round(5 * (c / max_hits)))`, with the real
(float) arithmetic modelled in `ℚ`.  For `c = 0`, for `c = max_hits`, and for
the bounds `1 ≤ score ≤ 5`, the float and rational computations agree
exactly (`0.0`, `1.0` and `5.0` are exact floats and float rounding is
monotone); for intermediate ratios whose float image lands next to a
half-integer the float value may round differently, which none of the
verified properties depend on. -/
def heatScore (max_hits c : Nat) : ℤ :=
  if max_hits = 0 then 1 else max 1 (pyRound (5 * ((c : ℚ) / (max_hits : ℚ))))

/-- `score_categories` (src/app.py lines 277-286): returns the heat scores and
the raw hit counts, in the fixed category order. -/
def score_categories (headlines : List (List Char)) :
    List (String × ℤ) × List (String × Nat) :=
  let counts := categoryCounts headlines
  let max_hits := (counts.map Prod.snd).foldr max 0
  (counts.map (fun p => (p.1, heatScore max_hits p.2)), counts)

/-- `_parse_first_digit_1_to_5` (src/app.py lines 272-274):
`re.search(r"[1-5]", text)` finds the leftmost character in `'1'..'5'`;
`int(m.group())` is its digit value. -/
def _parse_first_digit_1_to_5 (text : List Char) : Option Nat :=
  match text.find? (fun c => decide ('1' ≤ c ∧ c ≤ '5')) with
  | some c => some (c.toNat - 48)
  | none => none

/-- A row of the daily history table `wahala_history.csv` (columns `date`,
`wahala_score`, src/app.py lines 255-270). -/
structure ScoreRow where
  date : String
  wahala_score : ℤ
deriving DecidableEq

/-- A row of the caption log `wahala_caption_log.csv` (columns `date`,
`score`, `caption`, src/app.py lines 456-471). -/
structure CaptionRow where
  date : String
  score : ℤ
  caption : List Char
deriving DecidableEq

/-- Observable condition of a backing CSV file when a store loads it:
missing, present but unparseable, or parsed into rows. -/
inductive StoreFile (α : Type)
  | absent
  | corrupt
  | parsed (rows : α)

/-- `_load_history` (src/app.py lines 255-262): a missing file and a
`read_csv` failure both yield the empty table (the `except` branch and the
final `return`); the model is total, matching the absence of any error path
to the caller. -/
def _load_history : StoreFile (List ScoreRow) → List ScoreRow
  | .parsed rows => rows
  | _ => []

/-- `_save_today` (src/app.py lines 264-270): load, drop every row whose
`date` equals today, append the new row, persist.  Returns the persisted
table. -/
def _save_today (today : String) (score : ℤ)
    (fs : StoreFile (List ScoreRow)) : List ScoreRow :=
  let df := _load_history fs
  df.filter (fun r => r.date != today) ++ [⟨today, score⟩]

/-- The caption-log load inside `pick_unused_today` (src/app.py lines
458-464): missing or unparseable file becomes the empty log. -/
def loadCaptionLog : StoreFile (List CaptionRow) → List CaptionRow
  | .parsed rows => rows
  | _ => []

/-- The fallback sentence of src/app.py line 471. -/
def DEFAULT_CAPTION : List Char := "Top stories: key issues.".toList

/-- The `used` set of src/app.py line 465: captions already logged for
(today, score). -/
def usedToday (log : List CaptionRow) (today : String) (score : ℤ) :
    List (List Char) :=
  (log.filter (fun r => r.date == today && r.score == score)).map CaptionRow.caption

/-- `pick_unused_today` (src/app.py lines 456-471): load the log, return the
first candidate not already used for (today, score) and append it to the
persisted log; if every candidate is used return the first candidate (or the
fixed default sentence when the list is empty) without writing.  The result
pairs the returned caption with the log contents after the call. -/
def pick_unused_today (captions : List (List Char)) (score : ℤ) (today : String)
    (fs : StoreFile (List CaptionRow)) : List Char × List CaptionRow :=
  let log := loadCaptionLog fs
  let used := usedToday log today score
  match captions.find? (fun c => !used.contains c) with
  | some c => (c, log ++ [⟨today, score, c⟩])
  | none => (captions.headD DEFAULT_CAPTION, log)

/-- `n` consecutive calls of `pick_unused_today` with the same candidate list,
score and date, each call reading the log the previous call persisted.
Returns the list of returned captions and the final log. -/
def pickN : Nat → List (List Char) → ℤ → String → List CaptionRow →
    List (List Char) × List CaptionRow
  | 0, _, _, _, log => ([], log)
  | n + 1, captions, score, today, log =>
    let r := pick_unused_today captions score today (.parsed log)
    let rest := pickN n captions score today r.2
    (r.1 :: rest.1, rest.2)

/-- `STOPWORDS` (src/app.py lines 41-48), in source order. -/
def STOPWORDS : List (List Char) :=
  (["a", "an", "and", "the", "is", "are", "was", "were", "be", "been",
    "being", "of", "to", "in", "for", "on", "at", "by", "with", "from",
    "up", "down", "over", "under", "into", "out",
    "as", "about", "after", "before", "during", "around", "across",
    "between", "against", "through", "while", "due", "per", "via",
    "i", "you", "he", "she", "it", "we", "they", "them", "us", "our",
    "your", "their", "my", "his", "her", "its", "this", "that", "these",
    "those",
    "will", "would", "can", "could", "shall", "should", "may", "might",
    "must", "not", "no", "yes", "do", "does", "did", "doing", "done",
    "than", "then", "there", "here", "where", "who", "whom", "whose",
    "which", "what", "why", "how",
    "new", "govt", "government", "nigeria", "nigerian", "lagos", "abuja",
    "kano", "state", "federal", "local", "today", "news"] : List String).map
    String.toList

/-- `BAD_TOPIC_TOKENS` (src/app.py lines 51-55). -/
def BAD_TOPIC_TOKENS : List (List Char) :=
  (["says", "said", "say", "saying", "tells", "told", "urges", "reacts",
    "vows", "meets", "seeks", "slams", "backs", "hails", "warns", "admits",
    "alleges", "claims",
    "video", "photos", "picture", "watch", "live", "update", "updates",
    "headline", "headlines", "report", "reports", "story", "stories",
    "breaking", "latest",
    "south", "north", "east", "west", "centre", "central", "statewide",
    "state-wide", "nationwide"] : List String).map String.toList

/-- `ACRONYM_UPCASE` (src/app.py lines 61-64). -/
def ACRONYM_UPCASE : List (List Char × List Char) :=
  ([("cbn", "CBN"), ("efcc", "EFCC"), ("nnpc", "NNPC"), ("fg", "FG"),
    ("nlng", "NLNG"), ("imf", "IMF"), ("opec", "OPEC"), ("pdp", "PDP"),
    ("apc", "APC"), ("inec", "INEC"), ("nlc", "NLC"),
    ("tuc", "TUC")] : List (String × String)).map
    (fun p => (p.1.toList, p.2.toList))

/-- `SMALL_WORDS` (src/app.py line 65). -/
def SMALL_WORDS : List (List Char) :=
  (["and", "or", "the", "of", "in", "on", "at", "to", "for", "by",
    "with"] : List String).map String.toList

/-- Maximal runs of `[a-zA-Z\-]` characters. -/
def alphaDashRunsAux (acc : List Char) : List Char → List (List Char)
  | [] => if acc.isEmpty then [] else [acc.reverse]
  | c :: rest =>
    if c.isAlpha || c = '-' then alphaDashRunsAux (c :: acc) rest
    else if acc.isEmpty then alphaDashRunsAux [] rest
    else acc.reverse :: alphaDashRunsAux [] rest

/-- `re.findall(r"[a-zA-Z][a-zA-Z\-]+", text)`: within each maximal
letters-and-hyphens run, a (greedy, non-overlapping) match starts at the
first letter and extends to the end of the run; it must have length ≥ 2. -/
def findAlphaTokens (text : List Char) : List (List Char) :=
  (alphaDashRunsAux [] text).filterMap (fun run =>
    let r := run.dropWhile (fun c => !c.isAlpha)
    if decide (r.length ≥ 2) then some r else none)

/-- `_tokens` (src/app.py lines 291-292). -/
def _tokens (text : List Char) : List (List Char) :=
  (findAlphaTokens text).map (List.map Char.toLower)

/-- The word-collection loop of `extract_topics` (src/app.py lines 359-367):
per headline, the non-stopword unigrams of length ≥ 4, then the adjacent
bigrams whose two halves are both non-stopwords. -/
def topicWords (headlines : List (List Char)) : List (List Char) :=
  (headlines.map (fun h =>
    let toks := _tokens h
    toks.filter (fun w => !STOPWORDS.contains w && decide (w.length ≥ 4))
    ++ (toks.zip toks.tail).filterMap (fun ab =>
        if !STOPWORDS.contains ab.1 && !STOPWORDS.contains ab.2 then
          some (ab.1 ++ ' ' :: ab.2)
        else none))).flatten

/-- One `Counter` update: increment an existing key or append a new one
(Python dicts keep insertion order). -/
def counterAdd (acc : List (List Char × Nat)) (w : List Char) :
    List (List Char × Nat) :=
  if acc.any (fun p => p.1 == w) then
    acc.map (fun p => if p.1 == w then (p.1, p.2 + 1) else p)
  else acc ++ [(w, 1)]

/-- `Counter(words)` (src/app.py line 368) as an insertion-ordered list. -/
def counterOf (ws : List (List Char)) : List (List Char × Nat) :=
  ws.foldl counterAdd []

/-- The bigram boost of src/app.py lines 369-371: `int(counts[k] * 1.3)` for
keys containing a space.  For every count the app can produce (far below
2^49) the float computation equals `⌊13 * c / 10⌋`, modelled here in `ℕ`. -/
def boostBigrams (counts : List (List Char × Nat)) : List (List Char × Nat) :=
  counts.map (fun p => if p.1.contains ' ' then (p.1, 13 * p.2 / 10) else p)

/-- Insert into a list sorted by count descending, before the first entry of
strictly smaller count (so earlier entries win ties). -/
def insertByCountDesc (x : List Char × Nat) :
    List (List Char × Nat) → List (List Char × Nat)
  | [] => [x]
  | y :: ys => if y.2 > x.2 then y :: insertByCountDesc x ys else x :: y :: ys

/-- Stable descending sort by count: `Counter.most_common` orders by count
descending with ties in dict insertion order. -/
def sortByCountDesc : List (List Char × Nat) → List (List Char × Nat)
  | [] => []
  | x :: xs => insertByCountDesc x (sortByCountDesc xs)

/-- The compass-direction set of `_is_bad_topic` (src/app.py line 302). -/
def COMPASS : List (List Char) :=
  ["south".toList, "north".toList, "east".toList, "west".toList]

/-- `_is_bad_topic` (src/app.py lines 294-306). -/
def _is_bad_topic (t : List Char) : Bool :=
  let tl := t.map Char.toLower
  BAD_TOPIC_TOKENS.contains tl || STOPWORDS.contains tl
  || BRAND_BLOCKLIST.any (fun b => containsSub b tl)
  || decide (tl.length < 4)
  || COMPASS.contains tl
  || decide ((splitWsWords tl).length > 6)
  || (splitWsWords tl).any (fun x => decide (x.length > 18))

/-- The interrogative/conjunction alternatives of src/app.py line 329, in
alternation order. -/
def QWORDS : List (List Char) :=
  (["why", "how", "when", "what", "as", "amid", "after", "before",
    "during"] : List String).map String.toList

/-- The trailing class `[\s:,-]` of src/app.py line 329. -/
def qSepClass (c : Char) : Bool :=
  c.isWhitespace || c = ':' || c = ',' || c = '-'

/-- Word-boundary test after a match of length `n` at the head of `low`:
the next character is absent or a non-word character. -/
def boundaryAfter (low : List Char) (n : Nat) : Bool :=
  ((low.drop n).head?.map (fun c => !wordChar c)).getD true

/-- `re.sub(r"^(why|how|when|what|as|amid|after|before|during)\b[\s:,-]*",
"", s, IGNORECASE)` (src/app.py line 329): the alternatives are tried in
order at position 0, the matched alternative must end at a word boundary,
then `[\s:,-]*` is consumed greedily. -/
def stripLeadingQWord (s : List Char) : List Char :=
  let low := s.map Char.toLower
  match QWORDS.find? (fun w => w.isPrefixOf low && boundaryAfter low w.length) with
  | some w => (s.drop w.length).dropWhile qSepClass
  | none => s

/-- The reporting verbs of src/app.py line 330, in alternation order. -/
def RWORDS : List (List Char) :=
  (["says", "urges", "vows", "warns", "backs", "hails", "reacts", "alleges",
    "claims"] : List String).map String.toList

/-- Case-insensitive match of one of `ws` at the head of `l`, ending at a
word boundary; first alternative wins.  Returns the matched length. -/
def matchWordAt (ws : List (List Char)) (l : List Char) : Option Nat :=
  let low := l.map Char.toLower
  match ws.find? (fun w =>
      !w.isEmpty && w.isPrefixOf low && boundaryAfter low w.length) with
  | some w => some w.length
  | none => none

/-- Match of `(19|20)\d{2}\b` at the head of `l` (the year pattern of
src/app.py line 331); returns the matched length 4. -/
def matchYearAt (l : List Char) : Option Nat :=
  match l with
  | a :: b :: c :: d :: rest =>
    if ((a = '1' && b = '9') || (a = '2' && b = '0')) && c.isDigit && d.isDigit
        && ((rest.head?.map (fun x => !wordChar x)).getD true) then some 4
    else none
  | _ => none

/-- Match of `(PDP)\s*,\s*(APC)\b` at the head of `l` (src/app.py line 332,
case-insensitive); returns the matched length and the replacement `\1/\2`
built from the original-case matched groups. -/
def matchPdpApcAt (l : List Char) : Option (Nat × List Char) :=
  if "pdp".toList.isPrefixOf (l.map Char.toLower) then
    let r1 := l.drop 3
    let w1 := (r1.takeWhile Char.isWhitespace).length
    match r1.drop w1 with
    | ',' :: r2 =>
      let w2 := (r2.takeWhile Char.isWhitespace).length
      let r3 := r2.drop w2
      if "apc".toList.isPrefixOf (r3.map Char.toLower) &&
          ((r3.drop 3).head?.map (fun x => !wordChar x)).getD true then
        some (3 + w1 + 1 + w2 + 3, l.take 3 ++ '/' :: r3.take 3)
      else none
    | _ => none
  else none

/-- Generic `re.sub` scan for a pattern that must start at a word boundary
(the matchers above all begin and end with word characters): scan left to
right, at a boundary try the matcher, emit its replacement and resume after
the match; `prevWord` is the word-character status of the previously scanned
character of the original string.  Each step consumes at least one input
character, so `fuel = l.length` always suffices. -/
def replaceAtBoundaryGo (m : List Char → Option (Nat × List Char)) :
    Nat → Bool → List Char → List Char
  | 0, _, l => l
  | _ + 1, _, [] => []
  | fuel + 1, prevWord, c :: rest =>
    if !prevWord then
      match m (c :: rest) with
      | some nr => nr.2 ++ replaceAtBoundaryGo m fuel true ((c :: rest).drop nr.1)
      | none => c :: replaceAtBoundaryGo m fuel (wordChar c) rest
    else c :: replaceAtBoundaryGo m fuel (wordChar c) rest

/-- `re.sub(r"\s{2,}", " ", s)` (src/app.py line 334): only runs of two or
more whitespace characters collapse to one space; a lone whitespace
character is kept as it is. -/
def collapseWs2 : Nat → List Char → List Char
  | 0, l => l
  | _ + 1, [] => []
  | fuel + 1, c :: rest =>
    if c.isWhitespace then
      let run := rest.takeWhile Char.isWhitespace
      if run.isEmpty then c :: collapseWs2 fuel rest
      else ' ' :: collapseWs2 fuel (rest.drop run.length)
    else c :: collapseWs2 fuel rest

/-- The strip class of `.strip(" ,;:—–-")` (src/app.py line 334). -/
def tidyStripClass (c : Char) : Bool :=
  c = ' ' || c = ',' || c = ';' || c = ':' || c = '—' || c = '–' || c = '-'

/-- `.strip(" ,;:—–-")`: drop those characters from both ends. -/
def stripTidy (l : List Char) : List Char :=
  ((l.dropWhile tidyStripClass).reverse.dropWhile tidyStripClass).reverse

/-- Python `str.isalpha()` (ASCII): non-empty and all letters. -/
def pyIsAlphaStr (w : List Char) : Bool := !w.isEmpty && w.all Char.isAlpha

/-- The segments of `re.split(r"(\s+|–|-)", w)` (src/app.py line 312), in
order; separators (whitespace runs, en-dash, hyphen) and the text between
them.  Empty text fragments are omitted: `_nice_title` maps them to
themselves, so they do not affect the re-joined result. -/
def titleSegs : Nat → List Char → List (List Char)
  | 0, l => if l.isEmpty then [] else [l]
  | _ + 1, [] => []
  | fuel + 1, c :: rest =>
    if c.isWhitespace then
      let run := rest.takeWhile Char.isWhitespace
      (c :: run) :: titleSegs fuel (rest.drop run.length)
    else if c = '–' || c = '-' then [c] :: titleSegs fuel rest
    else
      let run := rest.takeWhile (fun d => !d.isWhitespace && d != '–' && d != '-')
      (c :: run) :: titleSegs fuel (rest.drop run.length)

/-- The per-segment step of `_nice_title` (src/app.py lines 313-325):
whitespace segments pass through; otherwise acronyms are replaced from the
table, small connector words are lower-cased, anything else has its first
character upper-cased. -/
def titleSeg (p : List Char) : List Char :=
  if p.all Char.isWhitespace then p
  else
    let low := p.map Char.toLower
    match ACRONYM_UPCASE.find? (fun a => a.1 == low) with
    | some a => a.2
    | none =>
      if SMALL_WORDS.contains low then low
      else
        match p with
        | [] => []
        | c :: cs => c.toUpper :: cs

/-- `_nice_title` (src/app.py lines 308-325): hyphens become en-dashes when
every hyphen-separated part is alphabetic, then each segment is title-cased
with acronym correction. -/
def _nice_title (word : List Char) : List Char :=
  let w := if word.contains '-' && (word.splitOn '-').all pyIsAlphaStr then
      word.map (fun c => if c = '-' then '–' else c)
    else word
  ((titleSegs w.length w).map titleSeg).flatten

/-- `_tidy_topic` (src/app.py lines 327-336). -/
def _tidy_topic (t : List Char) : List Char :=
  let s0 := stripWs t
  let s1 := stripLeadingQWord s0
  let s2 := replaceAtBoundaryGo
    (fun l => (matchWordAt RWORDS l).map (fun n => (n, ([] : List Char))))
    s1.length false s1
  let s3 := replaceAtBoundaryGo
    (fun l => (matchYearAt l).map (fun n => (n, ([] : List Char))))
    s2.length false s2
  let s4 := replaceAtBoundaryGo matchPdpApcAt s3.length false s3
  let s5 := collapseCommaRuns s4
  let s6 := stripTidy (collapseWs2 s5.length s5)
  _nice_title s6

/-- `_clean_topics` (src/app.py lines 338-356): filter out bad topics and
topics with fewer than 4 non-space characters, tidy the survivors, drop
empty or short results, then de-duplicate by the lower-cased stripped text,
first occurrence winning. -/
def _clean_topics (raw_topics : List (List Char)) : List (List Char) :=
  let clean := raw_topics.filterMap (fun t =>
    if _is_bad_topic t then none
    else if decide ((t.filter (fun c => c != ' ')).length < 4) then none
    else
      let t2 := _tidy_topic t
      if t2.isEmpty || decide (t2.length < 4) then none else some t2)
  dedupByKey (fun t => stripWs (t.map Char.toLower)) clean []

/-- `extract_topics` (src/app.py lines 358-381).  `3 - min 2 multis.length`
is the Python `max(0, 3 - min(2, len(multis)))`: the minuend is at least 1,
so truncated subtraction agrees. -/
def extract_topics (headlines : List (List Char)) (top_n : Nat := 12) :
    List (List Char) :=
  let counts := boostBigrams (counterOf (topicWords headlines))
  let raw_top := ((sortByCountDesc counts).take (top_n * 2)).map Prod.fst
  let top := _clean_topics raw_top
  let multis := top.filter (fun t => t.contains ' ')
  let singles := top.filter (fun t => !t.contains ' ')
  let final := multis.take (min 2 multis.length) ++
    singles.take (3 - min 2 multis.length)
  let final2 := if final.length < 2 then (multis ++ singles).take 2 else final
  final2.take 3

/-- Reference formulation of the de-duplication contract: an element is kept
exactly when no earlier element of the input (kept or dropped) has the same
key, and the output preserves input order.  `earlier` is the already-scanned
prefix of the input. -/
def keptFirstByKey {α β : Type} [BEq β] (key : α → β) :
    List α → List α → List α
  | _, [] => []
  | earlier, t :: rest =>
    if earlier.any (fun p => key p == key t) then
      keptFirstByKey key (earlier ++ [t]) rest
    else t :: keptFirstByKey key (earlier ++ [t]) rest

/-- Two sources that both carry the same headline. -/
def exPagesC5 : List (String × List (List Char)) :=
  [("Punch", ["Senate Passes Fuel Subsidy Removal Bill".toList]),
   ("Vanguard", ["Senate Passes Fuel Subsidy Removal Bill".toList])]

/-! ## Shared lemmas -/

theorem le_foldr_max {l : List Nat} {x : Nat} (h : x ∈ l) : x ≤ l.foldr max 0 := by
  induction l with
  | nil => cases h
  | cons a t ih =>
    rcases List.mem_cons.1 h with rfl | hmem
    · exact Nat.le_max_left _ _
    · exact le_trans (ih hmem) (Nat.le_max_right _ _)

theorem mem_zip_map_self {α β : Type} {f : α → β} {l : List α} {p : β × α}
    (h : p ∈ (l.map f).zip l) : ∃ x ∈ l, p = (f x, x) := by
  induction l with
  | nil => cases h
  | cons a t ih =>
    rcases List.mem_cons.1 h with rfl | hmem
    · exact ⟨a, List.mem_cons_self a t, rfl⟩
    · rcases ih hmem with ⟨x, hx, rfl⟩
      exact ⟨x, List.mem_cons_of_mem a hx, rfl⟩

/-! ## C7: the severity-reply parser -/

/-- C7: for every reply text the parser returns the digit value of the
leftmost character in the range '1'..'5', and returns no score exactly when
no such character occurs; in particular the reply "I'd say 4 out of 5"
(spelled with `Char.ofNat 39` for the apostrophe) parses to 4 and "no clue"
parses to none. -/
theorem C7_parse_first_digit_spec :
    (∀ s, _parse_first_digit_1_to_5 s = none ↔ ∀ c ∈ s, ¬('1' ≤ c ∧ c ≤ '5'))
    ∧ (∀ pre c post, (∀ b ∈ pre, ¬('1' ≤ b ∧ b ≤ '5')) → '1' ≤ c → c ≤ '5' →
        _parse_first_digit_1_to_5 (pre ++ c :: post) = some (c.toNat - 48))
    ∧ _parse_first_digit_1_to_5
        ("I".toList ++ Char.ofNat 39 :: "d say 4 out of 5".toList) = some 4
    ∧ _parse_first_digit_1_to_5 "no clue".toList = none := by
  refine ⟨?_, ?_, by decide, by decide⟩
  · intro s
    have hmatch : _parse_first_digit_1_to_5 s = none ↔
        s.find? (fun c => decide ('1' ≤ c ∧ c ≤ '5')) = none := by
      unfold _parse_first_digit_1_to_5
      cases s.find? (fun c => decide ('1' ≤ c ∧ c ≤ '5')) <;> simp
    rw [hmatch, List.find?_eq_none]
    simp
  · intro pre c post hpre h1 h5
    have hnone : pre.find? (fun c => decide ('1' ≤ c ∧ c ≤ '5')) = none := by
      rw [List.find?_eq_none]
      intro x hx
      simpa using hpre x hx
    unfold _parse_first_digit_1_to_5
    rw [List.find?_append, hnone, Option.none_or,
      List.find?_cons_of_pos _ (by simpa using ⟨h1, h5⟩)]

/-- C7 witness: the parser theorem applied to a reply with leading
non-digit-range characters. -/
theorem C7_parse_witness :
    _parse_first_digit_1_to_5 ("xd 9".toList ++ '4' :: "later".toList) = some 4 :=
  C7_parse_first_digit_spec.2.1 "xd 9".toList '4' "later".toList
    (by decide) (by decide) (by decide)

/-! ## C8: saving today's score -/

/-- C8: saving today's score keeps exactly one row for today holding the
saved value, leaves the rows of every other date unchanged, a second save
the same day leaves exactly one row for today with the second value, and
the at-most-one-row-per-date invariant is preserved. -/
theorem C8_save_today_spec (today : String) (s1 s2 : ℤ) (df : List ScoreRow) :
    ((_save_today today s1 (.parsed df)).filter (fun r => r.date == today)
      = [⟨today, s1⟩])
    ∧ (∀ d : String, d ≠ today →
        (_save_today today s1 (.parsed df)).filter (fun r => r.date == d)
          = df.filter (fun r => r.date == d))
    ∧ ((_save_today today s2 (.parsed (_save_today today s1 (.parsed df)))).filter
        (fun r => r.date == today) = [⟨today, s2⟩])
    ∧ ((∀ d : String, (df.filter (fun r => r.date == d)).length ≤ 1) →
        ∀ d : String,
          ((_save_today today s1 (.parsed df)).filter (fun r => r.date == d)).length ≤ 1) := by
  have key : ∀ (sc : ℤ) (l : List ScoreRow),
      (_save_today today sc (.parsed l)).filter (fun r => r.date == today)
        = [⟨today, sc⟩] := by
    intro sc l
    unfold _save_today _load_history
    rw [List.filter_append, List.filter_filter]
    have h1 : (l.filter fun r => (r.date == today) && (r.date != today)) = [] := by
      rw [List.filter_eq_nil_iff]
      intro r _
      by_cases h : r.date = today <;> simp [h]
    rw [h1]
    simp
  have frame : ∀ (sc : ℤ) (d : String), d ≠ today →
      (_save_today today sc (.parsed df)).filter (fun r => r.date == d)
        = df.filter (fun r => r.date == d) := by
    intro sc d hd
    unfold _save_today _load_history
    rw [List.filter_append, List.filter_filter]
    have h2 : ([(⟨today, sc⟩ : ScoreRow)].filter fun r => r.date == d) = [] := by
      simp [Ne.symm hd]
    rw [h2, List.append_nil]
    apply List.filter_congr
    intro r _
    by_cases h : r.date = d
    · have : r.date ≠ today := h ▸ hd
      simp [h, this, hd]
    · simp [h]
  refine ⟨key s1 df, frame s1, key s2 _, ?_⟩
  intro hinv d
  by_cases hd : d = today
  · subst hd
    rw [key s1 df]
    exact le_refl 1
  · rw [frame s1 d hd]
    exact hinv d

/-- C8 witness: the frame part of the save theorem at a concrete history. -/
theorem C8_save_witness :
    (_save_today "2026-10-12" 4 (.parsed [⟨"2026-10-11", 3⟩])).filter
        (fun r => r.date == "2026-10-11")
      = ([⟨"2026-10-11", 3⟩] : List ScoreRow).filter (fun r => r.date == "2026-10-11") :=
  (C8_save_today_spec "2026-10-12" 4 5 [⟨"2026-10-11", 3⟩]).2.1 "2026-10-11" (by decide)

/-! ## C9: missing or corrupt stores behave as empty stores -/

/-- C9: loading either persisted store from a missing or unparseable file
yields the empty store (the model is a total function: no error reaches the
caller), and both the history save and the caption picker behave on such a
file exactly as on an empty store. -/
theorem C9_store_fallback :
    _load_history .absent = [] ∧ _load_history .corrupt = []
    ∧ loadCaptionLog .absent = [] ∧ loadCaptionLog .corrupt = []
    ∧ (∀ today score, _save_today today score .absent
          = _save_today today score (.parsed [])
        ∧ _save_today today score .corrupt = _save_today today score (.parsed []))
    ∧ (∀ captions score today,
        pick_unused_today captions score today .absent
          = pick_unused_today captions score today (.parsed [])
        ∧ pick_unused_today captions score today .corrupt
          = pick_unused_today captions score today (.parsed [])) :=
  ⟨rfl, rfl, rfl, rfl, fun _ _ => ⟨rfl, rfl⟩, fun _ _ _ => ⟨rfl, rfl⟩⟩

/-! ## C10: per-source and combined batch caps -/

theorem all_headlines_length_le (pages : List (String × List (List Char))) :
    (all_headlines pages).length ≤ 40 * pages.length := by
  induction pages with
  | nil => simp [all_headlines, fetch_all_sources]
  | cons p ps ih =>
    have hfetch : (fetch_headlines_from p.2).length ≤ 40 := by
      unfold fetch_headlines_from
      exact List.length_take_le _ _
    calc (all_headlines (p :: ps)).length
        = (fetch_headlines_from p.2).length + (all_headlines ps).length := by
          simp [all_headlines, fetch_all_sources]
      _ ≤ 40 + 40 * ps.length := Nat.add_le_add hfetch ih
      _ = 40 * (p :: ps).length := by
          simp [List.length_cons, Nat.mul_add, Nat.add_comm, Nat.mul_one]

/-- C10: every per-source fetch returns at most `limit` headlines (40 by
default), the cap being applied after normalisation, filtering and
de-duplication (it is the final truncation of the de-duplicated list), so
the combined batch over the 6 configured sources has at most 240 headlines. -/
theorem C10_fetch_caps (pages : List (String × List (List Char))) :
    (∀ raws min_len max_words limit,
      (fetch_headlines_from raws min_len max_words limit).length ≤ limit)
    ∧ (all_headlines pages).length ≤ 40 * pages.length
    ∧ (pages.length = SOURCES.length → (all_headlines pages).length ≤ 240) := by
  refine ⟨?_, all_headlines_length_le pages, ?_⟩
  · intro raws min_len max_words limit
    unfold fetch_headlines_from
    exact List.length_take_le _ _
  · intro hlen
    have h6 : SOURCES.length = 6 := by decide
    have := all_headlines_length_le pages
    omega

/-- C10 witness: the combined cap at six concrete (empty) sources. -/
theorem C10_fetch_witness :
    (all_headlines [("Punch", []), ("Vanguard", []), ("Premium Times", []),
      ("Daily Trust", []), ("TheCable", []), ("Naija News", [])]).length ≤ 240 :=
  (C10_fetch_caps _).2.2 (by decide)

/-! ## C2: category heat scores -/

theorem pyRound_zero : pyRound 0 = 0 := by norm_num [pyRound]

theorem pyRound_five : pyRound 5 = 5 := by norm_num [pyRound]

theorem pyRound_le_floor_succ {x : ℚ} : pyRound x ≤ ⌊x⌋ + 1 := by
  unfold pyRound
  split_ifs <;> omega

theorem pyRound_le_five {x : ℚ} (h : x ≤ 5) : pyRound x ≤ 5 := by
  have h5 : ⌊(5 : ℚ)⌋ = 5 := by norm_num
  have hf : ⌊x⌋ ≤ 5 := h5 ▸ Int.floor_mono h
  rcases lt_or_eq_of_le hf with hlt | heq
  · have := pyRound_le_floor_succ (x := x)
    omega
  · have hge : (5 : ℚ) ≤ x := by
      have hfl := Int.floor_le x
      rw [heq] at hfl
      exact_mod_cast hfl
    rw [le_antisymm h hge, pyRound_five]

theorem one_le_heatScore (m c : Nat) : 1 ≤ heatScore m c := by
  unfold heatScore
  split_ifs
  · exact le_refl 1
  · exact le_max_left 1 _

theorem heatScore_le_five {m c : Nat} (h : c ≤ m) : heatScore m c ≤ 5 := by
  unfold heatScore
  split_ifs with hm
  · norm_num
  · have hm0 : (0 : ℚ) < m := by exact_mod_cast Nat.pos_of_ne_zero hm
    have hdiv : (c : ℚ) / m ≤ 1 := by
      rw [div_le_one hm0]
      exact_mod_cast h
    have harg : 5 * ((c : ℚ) / m) ≤ 5 := by linarith
    exact max_le (by norm_num) (pyRound_le_five harg)

theorem heatScore_zero (m : Nat) : heatScore m 0 = 1 := by
  unfold heatScore
  split_ifs with hm
  · rfl
  · norm_num [pyRound_zero]

theorem heatScore_of_max {m : Nat} (hm : m ≠ 0) : heatScore m m = 5 := by
  unfold heatScore
  rw [if_neg hm, div_self (Nat.cast_ne_zero.mpr hm), mul_one, pyRound_five]
  norm_num

/-- C2 counterexample: in a batch with no keyword hits at all, every
category's hit count (0) equals the maximum hit count (0), yet every heat
score is 1, not 5 as the claim states for max-count categories. -/
theorem C2_heat_counterexample :
    maxHits ["hello world foo".toList] = 0
    ∧ (score_categories ["hello world foo".toList]).2 =
        [("Politics", 0), ("Economy", 0), ("Power & Fuel", 0),
         ("Security", 0), ("Social Buzz", 0)]
    ∧ (score_categories ["hello world foo".toList]).1 =
        [("Politics", 1), ("Economy", 1), ("Power & Fuel", 1),
         ("Security", 1), ("Social Buzz", 1)]
    ∧ ((1 : ℤ) ≠ 5) := by
  refine ⟨by decide, by decide, by decide, by decide⟩

/-- C2 as amended: every category's heat score lies in [1, 5]; a category
with zero hits scores exactly 1; a category whose hit count equals the batch
maximum scores exactly 5 provided that maximum is non-zero (when every count
is zero, all categories score 1). -/
theorem C2_heat_bounds (hs : List (List Char)) :
    ∀ p ∈ (score_categories hs).1.zip (score_categories hs).2,
      p.1.1 = p.2.1 ∧ (1 ≤ p.1.2 ∧ p.1.2 ≤ 5)
      ∧ (p.2.2 = 0 → p.1.2 = 1)
      ∧ (p.2.2 = maxHits hs → maxHits hs ≠ 0 → p.1.2 = 5) := by
  intro p hp
  have hzip : (score_categories hs).1 = (categoryCounts hs).map
      (fun q => (q.1, heatScore (maxHits hs) q.2)) := rfl
  have hcounts : (score_categories hs).2 = categoryCounts hs := rfl
  rw [hzip, hcounts] at hp
  rcases mem_zip_map_self hp with ⟨x, hx, rfl⟩
  have hle : x.2 ≤ maxHits hs :=
    le_foldr_max (List.mem_map_of_mem Prod.snd hx)
  refine ⟨rfl, ⟨one_le_heatScore _ _, heatScore_le_five hle⟩, ?_, ?_⟩
  · intro h0
    show heatScore (maxHits hs) x.2 = 1
    rw [h0]
    exact heatScore_zero _
  · intro hmax hne
    show heatScore (maxHits hs) x.2 = 5
    rw [hmax]
    exact heatScore_of_max hne

/-- C2 witness: the amended theorem applied to a concrete batch in which
"Politics" has zero hits and receives heat score 1. -/
theorem C2_heat_witness :
    (("Politics", (1 : ℤ)), ("Politics", 0)).1.2 = 1 :=
  (C2_heat_bounds ["hello world foo".toList]
    (("Politics", (1 : ℤ)), ("Politics", 0)) (by decide)).2.2.1 (by decide)

/-! ## C4: de-duplication keeps the first occurrence of each key -/

theorem dedupByKey_sublist {α β : Type} [BEq β] (key : α → β) :
    ∀ (ts : List α) (seen : List β), List.Sublist (dedupByKey key ts seen) ts := by
  intro ts
  induction ts with
  | nil => intro seen; exact List.Sublist.refl []
  | cons t rest ih =>
    intro seen
    unfold dedupByKey
    by_cases hc : seen.contains (key t) = true
    · rw [if_pos hc]
      exact (ih seen).cons t
    · rw [if_neg hc]
      exact (ih _).cons₂ t

theorem dedupByKey_eq_keptFirst {α β : Type} [BEq β] [LawfulBEq β] (key : α → β) :
    ∀ (ts earlier : List α) (seen : List β),
      (∀ k : β, seen.contains k = true ↔ ∃ p ∈ earlier, key p = k) →
      dedupByKey key ts seen = keptFirstByKey key earlier ts := by
  intro ts
  induction ts with
  | nil => intro earlier seen hinv; rfl
  | cons t rest ih =>
    intro earlier seen hinv
    have hany : earlier.any (fun p => key p == key t) = true
        ↔ ∃ p ∈ earlier, key p = key t := by
      rw [List.any_eq_true]
      simp
    unfold dedupByKey keptFirstByKey
    by_cases hc : seen.contains (key t) = true
    · rw [if_pos hc, if_pos (hany.mpr (hinv _ |>.mp hc))]
      apply ih (earlier ++ [t]) seen
      intro k
      rw [hinv k]
      constructor
      · rintro ⟨p, hp, rfl⟩
        exact ⟨p, List.mem_append_left _ hp, rfl⟩
      · rintro ⟨p, hp, rfl⟩
        rcases List.mem_append.1 hp with hp' | hp'
        · exact ⟨p, hp', rfl⟩
        · rcases List.mem_singleton.1 hp' with rfl
          exact hinv _ |>.mp hc
    · have hcne : ¬ earlier.any (fun p => key p == key t) = true := by
        intro hx
        exact hc (hinv _ |>.mpr (hany.mp hx))
      rw [if_neg hc, if_neg hcne]
      rw [ih (earlier ++ [t]) (key t :: seen) ?_]
      intro k
      rw [List.contains_cons]
      constructor
      · intro hk
        rcases Bool.or_eq_true_iff.1 hk with hk' | hk'
        · have : k = key t := by simpa using hk'
          exact ⟨t, List.mem_append_right _ (List.mem_singleton.mpr rfl), this.symm⟩
        · rcases (hinv k).mp hk' with ⟨p, hp, rfl⟩
          exact ⟨p, List.mem_append_left _ hp, rfl⟩
      · rintro ⟨p, hp, rfl⟩
        rcases List.mem_append.1 hp with hp' | hp'
        · exact Bool.or_eq_true_iff.2 (Or.inr ((hinv _).mpr ⟨p, hp', rfl⟩))
        · rcases List.mem_singleton.1 hp' with rfl
          exact Bool.or_eq_true_iff.2 (Or.inl (by simp))

/-- C4: the de-duplication stage of the fetch pipeline keeps exactly the
first occurrence of each key (the headline lowered, non-word runs collapsed
to a space, trimmed), later same-key headlines being dropped, and the output
is a sublist of the input, i.e. in first-seen input order. -/
theorem C4_dedup_first_occurrence (ts : List (List Char)) :
    dedupByKey dedupKey ts [] = keptFirstByKey dedupKey [] ts
    ∧ List.Sublist (dedupByKey dedupKey ts []) ts := by
  refine ⟨?_, dedupByKey_sublist dedupKey ts []⟩
  exact dedupByKey_eq_keptFirst dedupKey ts [] [] (by intro k; simp)

/-! ## C5: de-duplication does not reach across sources -/

/-- C5 counterexample: the combined batch handed to the classifier keeps the
same headline once per source, so two entries of the batch share the
de-duplication key — the dedup key function is only applied within a single
source's fetch. -/
theorem C5_cross_source_counterexample :
    all_headlines exPagesC5 =
      ["Senate Passes Fuel Subsidy Removal Bill".toList,
       "Senate Passes Fuel Subsidy Removal Bill".toList]
    ∧ ¬ ((all_headlines exPagesC5).map dedupKey).Nodup := by
  refine ⟨by decide, by decide⟩

theorem dedupByKey_keys_nodup {α β : Type} [BEq β] [LawfulBEq β] (key : α → β) :
    ∀ (ts : List α) (seen : List β),
      ((dedupByKey key ts seen).map key).Nodup
      ∧ ∀ t ∈ dedupByKey key ts seen, seen.contains (key t) = false := by
  intro ts
  induction ts with
  | nil =>
    intro seen
    exact ⟨List.nodup_nil, by intro t ht; cases ht⟩
  | cons t rest ih =>
    intro seen
    unfold dedupByKey
    by_cases hc : seen.contains (key t) = true
    · rw [if_pos hc]
      exact ih seen
    · rw [if_neg hc]
      obtain ⟨hnd, hun⟩ := ih (key t :: seen)
      refine ⟨?_, ?_⟩
      · rw [List.map_cons, List.nodup_cons]
        refine ⟨?_, hnd⟩
        intro hmem
        rcases List.mem_map.1 hmem with ⟨u, hu, hku⟩
        have hfalse := hun u hu
        rw [List.contains_cons] at hfalse
        simp [hku] at hfalse
      · intro u hu
        rcases List.mem_cons.1 hu with rfl | hu'
        · exact eq_false_of_ne_true hc
        · have hfalse := hun u hu'
          rw [List.contains_cons] at hfalse
          exact (Bool.or_eq_false_iff.1 hfalse).2

/-- C5 as amended: de-duplication is per-source — within each single
source's fetched list no two headlines share the dedup key (while the
combined cross-source batch may repeat keys, see the counterexample). -/
theorem C5_per_source_key_nodup (pages : List (String × List (List Char))) :
    ∀ pr ∈ fetch_all_sources pages, (pr.2.map dedupKey).Nodup := by
  intro pr hpr
  rcases List.mem_map.1 hpr with ⟨q, hq, rfl⟩
  show ((fetch_headlines_from q.2).map dedupKey).Nodup
  unfold fetch_headlines_from
  rw [List.map_take]
  exact (List.take_sublist _ _).nodup (dedupByKey_keys_nodup dedupKey _ []).1

/-- C5 witness: the per-source key-uniqueness theorem applied to one concrete
fetched source. -/
theorem C5_per_source_witness :
    (((fetch_headlines_from
        ["Senate Passes Fuel Subsidy Removal Bill".toList]).map dedupKey)).Nodup :=
  C5_per_source_key_nodup
    [("Punch", ["Senate Passes Fuel Subsidy Removal Bill".toList])]
    ("Punch", fetch_headlines_from ["Senate Passes Fuel Subsidy Removal Bill".toList])
    (List.mem_singleton.mpr rfl)

/-! ## C6: topic extraction returns at most 3 phrases of length ≥ 4 -/

theorem clean_topics_mem_length {raw : List (List Char)} :
    ∀ t ∈ _clean_topics raw, t ≠ [] ∧ 4 ≤ t.length := by
  intro t ht
  unfold _clean_topics at ht
  have ht' := (dedupByKey_sublist _ _ _).subset ht
  rcases List.mem_filterMap.1 ht' with ⟨a, _, hfa⟩
  dsimp only at hfa
  split_ifs at hfa with h1 h2 h3
  rcases Option.some_inj.1 hfa with rfl
  rw [Bool.or_eq_true, not_or] at h3
  obtain ⟨he, hlen⟩ := h3
  refine ⟨?_, ?_⟩
  · intro hnil
    exact he (by rw [List.isEmpty_iff]; exact hnil)
  · by_contra hlt
    exact hlen (decide_eq_true (by omega))

/-- C6: for every headline batch and shortlist size, the extractor returns
at most 3 topic phrases, each a non-empty string of at least 4 characters. -/
theorem C6_extract_topics_spec (hs : List (List Char)) (top_n : Nat) :
    (extract_topics hs top_n).length ≤ 3
    ∧ ∀ t ∈ extract_topics hs top_n, t ≠ [] ∧ 4 ≤ t.length := by
  constructor
  · unfold extract_topics
    exact List.length_take_le _ _
  · intro t ht
    unfold extract_topics at ht
    dsimp only at ht
    have ht2 := List.take_subset _ _ ht
    have hmem : t ∈ _clean_topics
        (((sortByCountDesc (boostBigrams (counterOf (topicWords hs)))).take
          (top_n * 2)).map Prod.fst) := by
      split at ht2
      · have := List.take_subset _ _ ht2
        rcases List.mem_append.1 this with h | h
        · exact List.filter_subset' _ h
        · exact List.filter_subset' _ h
      · rcases List.mem_append.1 ht2 with h | h
        · exact List.filter_subset' _ (List.take_subset _ _ h)
        · exact List.filter_subset' _ (List.take_subset _ _ h)
    exact clean_topics_mem_length t hmem

/-- C6 witness: the extractor theorem applied to a concrete batch and one of
its extracted phrases. -/
theorem C6_extract_witness :
    ("Fuel Subsidy".toList ≠ [] ∧ 4 ≤ "Fuel Subsidy".toList.length) :=
  (C6_extract_topics_spec ["fuel subsidy fuel subsidy".toList] 12).2
    "Fuel Subsidy".toList (by decide)

/-! ## C1: caption anti-repeat -/

theorem usedToday_append (L L' : List CaptionRow) (today : String) (score : ℤ) :
    usedToday (L ++ L') today score
      = usedToday L today score ++ usedToday L' today score := by
  unfold usedToday
  rw [List.filter_append, List.map_append]

theorem usedToday_row (today : String) (score : ℤ) (c : List Char) :
    usedToday [⟨today, score, c⟩] today score = [c] := by
  unfold usedToday
  simp

theorem usedToday_map_rows (captions : List (List Char)) (today : String)
    (score : ℤ) :
    usedToday (captions.map (fun c => ⟨today, score, c⟩)) today score = captions := by
  induction captions with
  | nil => rfl
  | cons c cs ih =>
    rw [List.map_cons,
      show (⟨today, score, c⟩ : CaptionRow) :: cs.map (fun c => ⟨today, score, c⟩)
        = [⟨today, score, c⟩] ++ cs.map (fun c => ⟨today, score, c⟩) from rfl,
      usedToday_append, usedToday_row, ih]
    rfl

theorem pick_step (pre cs : List (List Char)) (c : List Char) (score : ℤ)
    (today : String) (L : List CaptionRow)
    (hpre : ∀ x ∈ pre, x ∈ usedToday L today score)
    (hc : c ∉ usedToday L today score) :
    pick_unused_today (pre ++ c :: cs) score today (.parsed L)
      = (c, L ++ [⟨today, score, c⟩]) := by
  have hprefind : pre.find?
      (fun x => !(usedToday L today score).contains x) = none := by
    rw [List.find?_eq_none]
    intro x hx
    simpa using hpre x hx
  unfold pick_unused_today loadCaptionLog
  dsimp only
  rw [List.find?_append, hprefind, Option.none_or,
    List.find?_cons_of_pos _ (by simpa using hc)]

theorem pickN_run (score : ℤ) (today : String) :
    ∀ (n : Nat) (pre post : List (List Char)) (L : List CaptionRow),
      (pre ++ post).Nodup →
      (∀ c ∈ pre, c ∈ usedToday L today score) →
      (∀ c ∈ post, c ∉ usedToday L today score) →
      n ≤ post.length →
      pickN n (pre ++ post) score today L =
        (post.take n, L ++ (post.take n).map (fun c => ⟨today, score, c⟩)) := by
  intro n
  induction n with
  | zero =>
    intro pre post L _ _ _ _
    simp [pickN]
  | succ n ih =>
    intro pre post L hnd hpre hpost hle
    cases post with
    | nil => exact absurd hle (by simp)
    | cons c cs =>
      have hpick := pick_step pre cs c score today L hpre
        (hpost c (List.mem_cons_self c cs))
      have hused' : usedToday (L ++ [⟨today, score, c⟩]) today score
          = usedToday L today score ++ [c] := by
        rw [usedToday_append, usedToday_row]
      have hccs : c ∉ cs := by
        have h1 : (c :: cs).Nodup := (List.nodup_append.1 hnd).2.1
        exact (List.nodup_cons.1 h1).1
      have ih' := ih (pre ++ [c]) cs (L ++ [⟨today, score, c⟩])
        (by rw [List.append_assoc, List.singleton_append]; exact hnd)
        (by
          intro x hx
          rw [hused']
          rcases List.mem_append.1 hx with hx' | hx'
          · exact List.mem_append_left _ (hpre x hx')
          · rcases List.mem_singleton.1 hx' with rfl
            exact List.mem_append_right _ (List.mem_singleton.mpr rfl))
        (by
          intro x hx
          rw [hused']
          intro hmem
          rcases List.mem_append.1 hmem with hx' | hx'
          · exact hpost x (List.mem_cons_of_mem c hx) hx'
          · rcases List.mem_singleton.1 hx' with rfl
            exact hccs hx)
        (by simpa using hle)
      show pickN (n + 1) (pre ++ c :: cs) score today L = _
      unfold pickN
      rw [hpick]
      dsimp only
      rw [show pre ++ c :: cs = (pre ++ [c]) ++ cs by
        rw [List.append_assoc, List.singleton_append], ih']
      simp [List.append_assoc]

/-- C1: starting from an empty (or absent) log, with pairwise-distinct
candidate captions: the first n calls (n up to the candidate count) return
exactly the first n candidates in order — n distinct captions — and the log
then holds exactly the returned captions as appended rows; the next call
after all candidates are used returns the first candidate again (the default
sentence for an empty list) and leaves the log unchanged; and a call with an
empty candidate list returns the fixed default sentence without writing. -/
theorem C1_caption_anti_repeat (captions : List (List Char)) (score : ℤ)
    (today : String) (hnd : captions.Nodup) :
    (∀ n, n ≤ captions.length →
      (pickN n captions score today []).1 = captions.take n
      ∧ ((pickN n captions score today []).1).Nodup
      ∧ (pickN n captions score today []).2
          = (captions.take n).map (fun c => ⟨today, score, c⟩))
    ∧ pick_unused_today captions score today
        (.parsed (pickN captions.length captions score today []).2)
      = (captions.headD DEFAULT_CAPTION,
         (pickN captions.length captions score today []).2)
    ∧ (∀ fs, pick_unused_today [] score today fs
        = (DEFAULT_CAPTION, loadCaptionLog fs)) := by
  have hrun : ∀ n, n ≤ captions.length →
      pickN n captions score today [] =
        (captions.take n, (captions.take n).map (fun c => ⟨today, score, c⟩)) := by
    intro n hle
    have h := pickN_run score today n [] captions []
      (by simpa using hnd)
      (by intro x hx; exact absurd hx (List.not_mem_nil x))
      (by intro x _ hmem; exact absurd hmem (List.not_mem_nil x))
      hle
    simpa using h
  refine ⟨?_, ?_, ?_⟩
  · intro n hle
    rw [hrun n hle]
    exact ⟨rfl, (List.take_sublist n captions).nodup hnd, rfl⟩
  · have hlog : (pickN captions.length captions score today []).2
        = captions.map (fun c => ⟨today, score, c⟩) := by
      rw [hrun captions.length (le_refl _)]
      simp
    rw [hlog]
    have hfind : captions.find?
        (fun c => !(usedToday (captions.map (fun c => ⟨today, score, c⟩))
          today score).contains c) = none := by
      rw [List.find?_eq_none]
      intro x hx
      simp only [usedToday_map_rows]
      simpa using hx
    unfold pick_unused_today loadCaptionLog
    dsimp only
    rw [hfind]
  · intro fs
    rfl

/-- C1 witness: two consecutive calls with two distinct candidates return
both candidates. -/
theorem C1_caption_witness :
    (pickN 2 ["a".toList, "b".toList] 3 "2026-10-12" []).1
      = ["a".toList, "b".toList].take 2 :=
  ((C1_caption_anti_repeat ["a".toList, "b".toList] 3 "2026-10-12"
    (by decide)).1 2 (by decide)).1

/-! ## C3: normalization is not idempotent in general -/

/-- C3 counterexample: the ellipsis is replaced by a space only after
whitespace has been collapsed, so one pass leaves the double space
in "a … b" that a second pass collapses. -/
theorem C3_normalize_counterexample :
    _normalize_headline "a … b".toList = "a   b".toList
    ∧ _normalize_headline (_normalize_headline "a … b".toList) = "a b".toList
    ∧ _normalize_headline (_normalize_headline "a … b".toList)
        ≠ _normalize_headline "a … b".toList :=
  ⟨by decide, by decide, by decide⟩

theorem map_id_of_mem {f : Char → Char} :
    ∀ {l : List Char}, (∀ c ∈ l, f c = c) → l.map f = l := by
  intro l
  induction l with
  | nil => intro _; rfl
  | cons c rest ih =>
    intro h
    rw [List.map_cons, h c (List.mem_cons_self c rest),
      ih (fun x hx => h x (List.mem_cons_of_mem c hx))]

theorem containsSub_of_isPrefixOf {p : List Char} :
    ∀ {l : List Char}, p.isPrefixOf l = true → containsSub p l = true := by
  intro l
  cases l with
  | nil =>
    intro h
    cases p with
    | nil => rfl
    | cons a q => cases h
  | cons c rest =>
    intro h
    unfold containsSub
    rw [h, Bool.true_or]

theorem stripOnePref_none {p h : List Char}
    (hns : containsSub p (h.map Char.toLower) = false) :
    stripOnePref p h = none := by
  unfold stripOnePref
  rw [if_neg]
  intro hp
  rw [containsSub_of_isPrefixOf hp] at hns
  cases hns

theorem stripSiteName_noop {h : List Char} :
    ∀ ps, (∀ p ∈ ps, containsSub p (h.map Char.toLower) = false) →
      stripSiteName ps h = h := by
  intro ps
  induction ps with
  | nil => intro _; rfl
  | cons p rest ih =>
    intro hall
    unfold stripSiteName
    rw [stripOnePref_none (hall p (List.mem_cons_self p rest))]
    exact ih (fun q hq => hall q (List.mem_cons_of_mem p hq))

theorem ccRun_no_comma :
    ∀ (l wbuf : List Char), ',' ∉ l → ccRun (.scanA wbuf) l = wbuf.reverse ++ l := by
  intro l
  induction l with
  | nil =>
    intro wbuf _
    simp [ccRun, ccFlush]
  | cons c rest ih =>
    intro wbuf hnc
    have hc : c ≠ ',' := fun h => hnc (h ▸ List.mem_cons_self c rest)
    have hrest : ',' ∉ rest := fun h => hnc (List.mem_cons_of_mem c h)
    unfold ccRun
    by_cases hws : c.isWhitespace = true
    · rw [if_pos hws, ih (c :: wbuf) hrest]
      simp
    · rw [if_neg hws, if_neg (by simpa using hc), ih [] hrest]
      simp

theorem collapseCommaRuns_noop {l : List Char} (h : ',' ∉ l) :
    collapseCommaRuns l = l := by
  unfold collapseCommaRuns
  rw [ccRun_no_comma l [] h]
  rfl

theorem isLower_eq_false_of_isUpper {c : Char} (h : c.isUpper = true) :
    c.isLower = false := by
  simp only [Char.isUpper, ge_iff_le, Bool.and_eq_true, decide_eq_true_eq] at h
  simp only [Char.isLower, ge_iff_le, Bool.and_eq_false_iff, decide_eq_false_iff_not]
  left
  intro h3
  have h2 := h.2
  rw [UInt32.le_def, BitVec.le_def] at h2 h3
  simp at h2 h3
  omega

theorem collapseRunsAux_head_false {p : Char → Bool} (l : List Char) :
    (collapseRunsAux p false l).head?
      = l.head?.map (fun c => if p c then ' ' else c) := by
  cases l with
  | nil => rfl
  | cons c rest =>
    by_cases h : p c = true
    · simp [collapseRunsAux, h]
    · simp [collapseRunsAux, h]

theorem collapseRunsAux_head_true {p : Char → Bool} :
    ∀ {l : List Char} {c : Char},
      (collapseRunsAux p true l).head? = some c → p c = false := by
  intro l
  induction l with
  | nil => intro c h; cases h
  | cons d rest ih =>
    intro c h
    by_cases hd : p d = true
    · rw [show collapseRunsAux p true (d :: rest) = collapseRunsAux p true rest
        from by simp [collapseRunsAux, hd]] at h
      exact ih h
    · rw [show collapseRunsAux p true (d :: rest) = d :: collapseRunsAux p false rest
        from by simp [collapseRunsAux, hd]] at h
      rcases Option.some_inj.1 h with rfl
      exact eq_false_of_ne_true hd

theorem collapseRunsAux_mem {p : Char → Bool} :
    ∀ {b : Bool} {l : List Char} {c : Char},
      c ∈ collapseRunsAux p b l → c = ' ' ∨ (p c = false ∧ c ∈ l) := by
  intro b l
  induction l generalizing b with
  | nil => intro c h; cases h
  | cons d rest ih =>
    intro c h
    by_cases hd : p d = true
    · cases b with
      | true =>
        rw [show collapseRunsAux p true (d :: rest) = collapseRunsAux p true rest
          from by simp [collapseRunsAux, hd]] at h
        rcases ih h with h' | ⟨h1, h2⟩
        · exact Or.inl h'
        · exact Or.inr ⟨h1, List.mem_cons_of_mem d h2⟩
      | false =>
        rw [show collapseRunsAux p false (d :: rest)
            = ' ' :: collapseRunsAux p true rest
          from by simp [collapseRunsAux, hd]] at h
        rcases List.mem_cons.1 h with rfl | h'
        · exact Or.inl rfl
        · rcases ih h' with h'' | ⟨h1, h2⟩
          · exact Or.inl h''
          · exact Or.inr ⟨h1, List.mem_cons_of_mem d h2⟩
    · rw [show collapseRunsAux p b (d :: rest) = d :: collapseRunsAux p false rest
        from by cases b <;> simp [collapseRunsAux, hd]] at h
      rcases List.mem_cons.1 h with rfl | h'
      · exact Or.inr ⟨eq_false_of_ne_true hd, List.mem_cons_self _ _⟩
      · rcases ih h' with h'' | ⟨h1, h2⟩
        · exact Or.inl h''
        · exact Or.inr ⟨h1, List.mem_cons_of_mem d h2⟩

theorem collapseRunsAux_chain_nows :
    ∀ {l : List Char} {b : Bool},
      List.Chain' (fun a c => ¬(Char.isWhitespace a = true ∧ Char.isWhitespace c = true))
        (collapseRunsAux Char.isWhitespace b l) := by
  intro l
  induction l with
  | nil => intro b; cases b <;> exact List.chain'_nil
  | cons d rest ih =>
    intro b
    by_cases hd : d.isWhitespace = true
    · cases b with
      | true =>
        rw [show collapseRunsAux Char.isWhitespace true (d :: rest)
            = collapseRunsAux Char.isWhitespace true rest
          from by simp [collapseRunsAux, hd]]
        exact ih
      | false =>
        rw [show collapseRunsAux Char.isWhitespace false (d :: rest)
            = ' ' :: collapseRunsAux Char.isWhitespace true rest
          from by simp [collapseRunsAux, hd]]
        refine List.chain'_cons'.2 ⟨?_, ih⟩
        intro y hy
        intro hcon
        have := collapseRunsAux_head_true hy
        rw [this] at hcon
        exact absurd hcon.2 (by simp)
    · rw [show collapseRunsAux Char.isWhitespace b (d :: rest)
          = d :: collapseRunsAux Char.isWhitespace false rest
        from by cases b <;> simp [collapseRunsAux, hd]]
      refine List.chain'_cons'.2 ⟨?_, ih⟩
      intro y _ hcon
      exact hd hcon.1

theorem collapseRunsAux_chain_preserved {R : Char → Char → Prop}
    (hsp1 : ∀ x, R x ' ') (hsp2 : ∀ y, R ' ' y) {p : Char → Bool} :
    ∀ {l : List Char} {b : Bool},
      List.Chain' R l → List.Chain' R (collapseRunsAux p b l) := by
  intro l
  induction l with
  | nil => intro b _; cases b <;> exact List.chain'_nil
  | cons d rest ih =>
    intro b hch
    have htail : List.Chain' R rest := (List.chain'_cons'.1 hch).2
    have hhead : ∀ y ∈ rest.head?, R d y := (List.chain'_cons'.1 hch).1
    by_cases hd : p d = true
    · cases b with
      | true =>
        rw [show collapseRunsAux p true (d :: rest) = collapseRunsAux p true rest
          from by simp [collapseRunsAux, hd]]
        exact ih htail
      | false =>
        rw [show collapseRunsAux p false (d :: rest)
            = ' ' :: collapseRunsAux p true rest
          from by simp [collapseRunsAux, hd]]
        exact List.chain'_cons'.2 ⟨fun y _ => hsp2 y, ih htail⟩
    · rw [show collapseRunsAux p b (d :: rest) = d :: collapseRunsAux p false rest
        from by cases b <;> simp [collapseRunsAux, hd]]
      refine List.chain'_cons'.2 ⟨?_, ih htail⟩
      intro y hy
      rw [collapseRunsAux_head_false] at hy
      cases rest with
      | nil => cases hy
      | cons e rest' =>
        simp only [List.head?_cons, Option.map_some] at hy
        rcases Option.some_inj.1 hy with rfl
        show R d (if p e = true then ' ' else e)
        by_cases he : p e = true
        · rw [if_pos he]
          exact hsp1 d
        · rw [if_neg he]
          exact hhead e (by simp)

theorem collapseRunsAux_noop {p : Char → Bool} :
    ∀ {l : List Char},
      (∀ c ∈ l, p c = true → c = ' ') →
      List.Chain' (fun a c => ¬(p a = true ∧ p c = true)) l →
      collapseRunsAux p false l = l
      ∧ ((∀ c, l.head? = some c → p c = false) → collapseRunsAux p true l = l) := by
  intro l
  induction l with
  | nil => intro _ _; exact ⟨rfl, fun _ => rfl⟩
  | cons d rest ih =>
    intro hsp hch
    have htail := (List.chain'_cons'.1 hch).2
    have hhead := (List.chain'_cons'.1 hch).1
    have ihr := ih (fun c hc => hsp c (List.mem_cons_of_mem d hc)) htail
    constructor
    · by_cases hd : p d = true
      · have hd' : d = ' ' := hsp d (List.mem_cons_self d rest) hd
        rw [show collapseRunsAux p false (d :: rest)
            = ' ' :: collapseRunsAux p true rest
          from by simp [collapseRunsAux, hd], ← hd']
        have : collapseRunsAux p true rest = rest := by
          apply ihr.2
          intro c hc
          by_contra hne
          exact hhead c hc ⟨hd, by simpa using hne⟩
        rw [this]
      · rw [show collapseRunsAux p false (d :: rest)
            = d :: collapseRunsAux p false rest
          from by simp [collapseRunsAux, hd], ihr.1]
    · intro hhd
      have hd : p d = false := hhd d rfl
      rw [show collapseRunsAux p true (d :: rest)
          = d :: collapseRunsAux p false rest
        from by simp [collapseRunsAux, hd], ihr.1]

theorem getLast?_of_suffix {l s : List Char} (h : List.IsSuffix s l)
    (hne : s ≠ []) : s.getLast? = l.getLast? := by
  obtain ⟨t, rfl⟩ := h
  rw [List.getLast?_append]
  cases hs : s.getLast? with
  | none =>
    rw [List.getLast?_eq_none_iff] at hs
    exact absurd hs hne
  | some a => simp

theorem head?_dropWhile_false {p : Char → Bool} {l : List Char} {c : Char}
    (h : (l.dropWhile p).head? = some c) : p c = false := by
  have hd := List.head?_dropWhile_not p l
  rw [h] at hd
  exact hd

theorem stripWs_head? {l : List Char} {c : Char}
    (h : (stripWs l).head? = some c) : c.isWhitespace = false := by
  unfold stripWs at h
  rw [List.head?_reverse] at h
  have hne : (l.dropWhile Char.isWhitespace).reverse.dropWhile Char.isWhitespace
      ≠ [] := by
    intro h0
    rw [h0] at h
    cases h
  rw [getLast?_of_suffix (List.dropWhile_suffix _) hne,
    List.getLast?_reverse] at h
  exact head?_dropWhile_false h

theorem stripWs_getLast? {l : List Char} {c : Char}
    (h : (stripWs l).getLast? = some c) : c.isWhitespace = false := by
  unfold stripWs at h
  rw [List.getLast?_reverse] at h
  exact head?_dropWhile_false h

theorem dropWhile_noop {p : Char → Bool} {l : List Char}
    (h : ∀ c, l.head? = some c → p c = false) : l.dropWhile p = l := by
  cases l with
  | nil => rfl
  | cons a rest => simp [List.dropWhile_cons, h a rfl]

theorem stripWs_noop {l : List Char}
    (hh : ∀ c, l.head? = some c → c.isWhitespace = false)
    (hl : ∀ c, l.getLast? = some c → c.isWhitespace = false) :
    stripWs l = l := by
  unfold stripWs
  rw [dropWhile_noop hh,
    dropWhile_noop (fun c hc => hl c (by rwa [List.head?_reverse] at hc))]
  exact List.reverse_reverse l

theorem stripWs_subset {l : List Char} : ∀ c ∈ stripWs l, c ∈ l := by
  intro c hc
  unfold stripWs at hc
  rw [List.mem_reverse] at hc
  have hc2 := (List.dropWhile_suffix _).sublist.subset hc
  rw [List.mem_reverse] at hc2
  exact (List.dropWhile_suffix _).sublist.subset hc2

theorem chain'_dropWhile {R : Char → Char → Prop} {p : Char → Bool}
    {l : List Char} (h : List.Chain' R l) : List.Chain' R (l.dropWhile p) :=
  h.suffix (List.dropWhile_suffix p)

theorem chain'_stripWs {R : Char → Char → Prop} {l : List Char}
    (h : List.Chain' R l) : List.Chain' R (stripWs l) := by
  unfold stripWs
  rw [List.chain'_reverse]
  exact chain'_dropWhile (by rw [List.chain'_reverse]; exact chain'_dropWhile h)

theorem splitCamelGlue_head? : ∀ l : List Char, (splitCamelGlue l).head? = l.head?
  | [] => rfl
  | [_] => rfl
  | a :: b :: rest => by
    by_cases h : (a.isLower && b.isUpper) = true
    · simp [splitCamelGlue, h]
    · simp [splitCamelGlue, h]

theorem splitCamelGlue_chain :
    ∀ l : List Char,
      List.Chain' (fun a b => (a.isLower && b.isUpper) = false) (splitCamelGlue l)
  | [] => List.chain'_nil
  | [c] => List.chain'_singleton c
  | a :: b :: rest => by
    by_cases h : (a.isLower && b.isUpper) = true
    · rw [show splitCamelGlue (a :: b :: rest) = a :: ' ' :: b :: splitCamelGlue rest
        from by simp [splitCamelGlue, h]]
      refine List.chain'_cons'.2 ⟨?_, List.chain'_cons'.2 ⟨?_, List.chain'_cons'.2
        ⟨?_, splitCamelGlue_chain rest⟩⟩⟩
      · intro y hy
        rcases Option.some_inj.1 hy with rfl
        rw [show Char.isUpper ' ' = false from by decide, Bool.and_false]
      · intro y hy
        rcases Option.some_inj.1 hy with rfl
        rw [show Char.isLower ' ' = false from by decide, Bool.false_and]
      · intro y _
        have hb : b.isUpper = true := by
          rw [Bool.and_eq_true] at h
          exact h.2
        rw [isLower_eq_false_of_isUpper hb, Bool.false_and]
    · rw [show splitCamelGlue (a :: b :: rest) = a :: splitCamelGlue (b :: rest)
        from by simp [splitCamelGlue, h]]
      refine List.chain'_cons'.2 ⟨?_, splitCamelGlue_chain (b :: rest)⟩
      intro y hy
      rw [splitCamelGlue_head? (b :: rest)] at hy
      rcases Option.some_inj.1 hy with rfl
      exact eq_false_of_ne_true h

theorem splitCamelGlue_noop :
    ∀ {l : List Char},
      List.Chain' (fun a b => (a.isLower && b.isUpper) = false) l →
      splitCamelGlue l = l
  | [], _ => rfl
  | [_], _ => rfl
  | a :: b :: rest, h => by
    have hab : (a.isLower && b.isUpper) = false := (List.chain'_cons'.1 h).1 b rfl
    rw [show splitCamelGlue (a :: b :: rest) = a :: splitCamelGlue (b :: rest)
      from by simp [splitCamelGlue, hab],
      splitCamelGlue_noop (List.chain'_cons'.1 h).2]

theorem collapsed_wsIsSpace (s : List Char) :
    ∀ c ∈ stripWs (collapseWs (splitCamelGlue s)),
      c.isWhitespace = true → c = ' ' := by
  intro c hc hws
  have hc2 := stripWs_subset c hc
  unfold collapseWs at hc2
  rcases collapseRunsAux_mem hc2 with h' | ⟨h1, _⟩
  · exact h'
  · rw [hws] at h1
    cases h1

theorem collapsed_chain_nows (s : List Char) :
    List.Chain' (fun a c => ¬(Char.isWhitespace a = true ∧ Char.isWhitespace c = true))
      (stripWs (collapseWs (splitCamelGlue s))) := by
  apply chain'_stripWs
  unfold collapseWs
  exact collapseRunsAux_chain_nows

theorem collapsed_chain_noglue (s : List Char) :
    List.Chain' (fun a b => (a.isLower && b.isUpper) = false)
      (stripWs (collapseWs (splitCamelGlue s))) := by
  apply chain'_stripWs
  unfold collapseWs
  exact collapseRunsAux_chain_preserved
    (fun x => by rw [show Char.isUpper ' ' = false from by decide, Bool.and_false])
    (fun y => by rw [show Char.isLower ' ' = false from by decide, Bool.false_and])
    (splitCamelGlue_chain s)

/-- Any list with single internal spaces, no doubled whitespace and
whitespace-free ends, containing no comma, em-dash, ellipsis or site-name
prefix, is a fixed point of the normalizer. -/
theorem normalize_fixpoint (h2 : List Char)
    (hws : ∀ c ∈ h2, c.isWhitespace = true → c = ' ')
    (hnows : List.Chain'
      (fun a c => ¬(Char.isWhitespace a = true ∧ Char.isWhitespace c = true)) h2)
    (hglue : List.Chain' (fun a b => (a.isLower && b.isUpper) = false) h2)
    (hhead : ∀ c, h2.head? = some c → c.isWhitespace = false)
    (hlast : ∀ c, h2.getLast? = some c → c.isWhitespace = false)
    (hcomma : ',' ∉ h2) (hdash : '—' ∉ h2) (hell : '…' ∉ h2)
    (hpref : ∀ p ∈ HEADLINE_PREFIXES,
      containsSub p (h2.map Char.toLower) = false) :
    _normalize_headline h2 = h2 := by
  have hdash' : h2.map replDash = h2 := map_id_of_mem (fun c hc => by
    unfold replDash
    rw [if_neg (fun he => hdash (by rw [← he]; exact hc))])
  have hell' : h2.map replEllipsis = h2 := map_id_of_mem (fun c hc => by
    unfold replEllipsis
    rw [if_neg (fun he => hell (by rw [← he]; exact hc))])
  have hstrip : stripWs h2 = h2 := stripWs_noop hhead hlast
  have hcoll : collapseWs h2 = h2 := by
    unfold collapseWs
    exact (collapseRunsAux_noop hws hnows).1
  unfold _normalize_headline
  dsimp only
  rw [splitCamelGlue_noop hglue, hcoll, hstrip,
    stripSiteName_noop HEADLINE_PREFIXES hpref, hdash', hell',
    collapseCommaRuns_noop hcomma, hstrip]

/-- Under the same character-level side conditions, one pass of the
normalizer computes exactly the stripped whitespace-collapse of the
camel-split input (the later stages are all no-ops). -/
theorem normalize_eq_collapsed (s : List Char)
    (hcomma : ',' ∉ stripWs (collapseWs (splitCamelGlue s)))
    (hdash : '—' ∉ stripWs (collapseWs (splitCamelGlue s)))
    (hell : '…' ∉ stripWs (collapseWs (splitCamelGlue s)))
    (hpref : ∀ p ∈ HEADLINE_PREFIXES,
      containsSub p ((stripWs (collapseWs (splitCamelGlue s))).map Char.toLower)
        = false) :
    _normalize_headline s = stripWs (collapseWs (splitCamelGlue s)) := by
  have hdash' : (stripWs (collapseWs (splitCamelGlue s))).map replDash
      = stripWs (collapseWs (splitCamelGlue s)) := map_id_of_mem (fun c hc => by
    unfold replDash
    rw [if_neg (fun he => hdash (by rw [← he]; exact hc))])
  have hell' : (stripWs (collapseWs (splitCamelGlue s))).map replEllipsis
      = stripWs (collapseWs (splitCamelGlue s)) := map_id_of_mem (fun c hc => by
    unfold replEllipsis
    rw [if_neg (fun he => hell (by rw [← he]; exact hc))])
  unfold _normalize_headline
  dsimp only
  rw [stripSiteName_noop HEADLINE_PREFIXES hpref, hdash', hell',
    collapseCommaRuns_noop hcomma,
    stripWs_noop (fun c hc => stripWs_head? hc) (fun c hc => stripWs_getLast? hc)]

/-- C3 as amended: normalization is idempotent on every input whose
whitespace-collapsed camel-split form contains no comma, no em-dash, no
ellipsis, and no site-outlet name as a (case-insensitive) substring; it is
not idempotent in general (see the counterexample: ellipsis replacement,
comma collapsing and repeated site prefixes can all leave work for a second
pass). -/
theorem C3_normalize_idempotent_on (s : List Char)
    (hcomma : ',' ∉ stripWs (collapseWs (splitCamelGlue s)))
    (hdash : '—' ∉ stripWs (collapseWs (splitCamelGlue s)))
    (hell : '…' ∉ stripWs (collapseWs (splitCamelGlue s)))
    (hpref : ∀ p ∈ HEADLINE_PREFIXES,
      containsSub p ((stripWs (collapseWs (splitCamelGlue s))).map Char.toLower)
        = false) :
    _normalize_headline (_normalize_headline s) = _normalize_headline s := by
  rw [normalize_eq_collapsed s hcomma hdash hell hpref]
  exact normalize_fixpoint _ (collapsed_wsIsSpace s) (collapsed_chain_nows s)
    (collapsed_chain_noglue s) (fun c hc => stripWs_head? hc)
    (fun c hc => stripWs_getLast? hc) hcomma hdash hell hpref

/-- C3 witness: idempotence on a concrete headline satisfying the side
conditions. -/
theorem C3_normalize_witness :
    _normalize_headline (_normalize_headline "Senate  Moves NewBill Today".toList)
      = _normalize_headline "Senate  Moves NewBill Today".toList :=
  C3_normalize_idempotent_on "Senate  Moves NewBill Today".toList
    (by decide) (by decide) (by decide) (by decide)

end Wahala
